import Mathlib

/-!
Verification of the `augmentation_utils` spectrogram-augmentation library.

Shallow embedding of `augmentation_utils/spec_augmentations.py` and
`augmentation_utils/augmentations.py`.  A 2-D `numpy` array of shape `(h, w)`
is embedded as a `List (List ℤ)` of `h` rows, each of length `w`.  Random
draws (`np.random.randint`, `np.random.uniform`, `np.random.choice`,
`random.randint`) are embedded as explicit oracle streams passed to each
function; `np.random.randint(low, high)` raises `ValueError` when
`low >= high`, which the embedding models with an `Except` result.
Python-level non-termination of the chunk-partition `while` loop is modelled
by a fuel counter whose exhaustion yields the distinguished error `diverge`.
-/

namespace AugUtils

/-- Outcomes of a Python call in this embedding: a raised `ValueError`
(from `numpy` random primitives), a failed `assert` (`AssertionError`), an
`AttributeError` (from `torch.nn.Module.__setattr__` when a sub-module is
assigned before `Module.__init__` ran), a `NameError` (lookup of a name the
module never imports), or non-termination of a loop (`diverge`, via fuel
exhaustion). -/
inductive PyErr where
  | valueError
  | assertionError
  | attributeError
  | nameError
  | diverge
deriving DecidableEq

/-- A 2-D array: list of rows. -/
abbrev Mat := List (List ℤ)

/-- Concatenation of a list of lists (`np.concatenate` along axis 0, and the
element enumeration of a 2-D array). -/
def joinAll {α : Type} : List (List α) → List α
  | [] => []
  | l :: ls => l ++ joinAll ls

/-- Minimum of a list of integers (`ndarray.min()`); `none` on an empty
array, where numpy raises. -/
def listMin : List ℤ → Option ℤ
  | [] => none
  | x :: xs =>
    match listMin xs with
    | none => some x
    | some m => some (min x m)

/-- `np.random.randint(low, high)`: a uniform integer in `[low, high)`,
realized here from one oracle draw; raises `ValueError` when `low >= high`. -/
def npRandint (lo hi : ℕ) (draw : ℕ) : Except PyErr ℕ :=
  if lo < hi then .ok (lo + draw % (hi - lo)) else .error .valueError

/-- `np.random.choice(range(n), size=k)`: `k` uniform indices in `[0, n)`
drawn **with replacement** (the numpy default); raises on an empty range. -/
def npChoice (n k : ℕ) (cdraw : ℕ → ℕ) : Except PyErr (List ℕ) :=
  if n = 0 then .error .valueError
  else .ok ((List.range k).map fun j => cdraw j % n)

/-- The chunk-partition `while` loop shared by all fractal transforms:
`while sum(chunk_width) < L: chunk_width.append(np.random.randint(lo, hi))`.
`fuel` bounds the number of iterations (the source loop has no bound). -/
def chunkWidthsGo (L lo hi : ℕ) (draw : ℕ → ℕ) : ℕ → ℕ → ℕ → Except PyErr (List ℕ)
  | 0, _, acc => if acc < L then .error .diverge else .ok []
  | fuel + 1, i, acc =>
    if acc < L then
      match npRandint lo hi (draw i) with
      | .error e => .error e
      | .ok wd => (chunkWidthsGo L lo hi draw fuel (i + 1) (acc + wd)).map (wd :: ·)
    else .ok []

/-- The drawn chunk widths for axis length `L` and bounds `[lo, hi)`.
Fuel `L + 1` suffices whenever `lo ≥ 1` (each width is then positive). -/
def chunkWidths (L lo hi : ℕ) (draw : ℕ → ℕ) : Except PyErr (List ℕ) :=
  chunkWidthsGo L lo hi draw (L + 1) 0 0

/-- `A.length = h` and every row has length `w`: the embedding of
"`numpy` array of shape `(h, w)`". -/
def IsMatrix (h w : ℕ) (A : Mat) : Prop :=
  A.length = h ∧ ∀ row ∈ A, row.length = w

instance (h w : ℕ) (A : Mat) : Decidable (IsMatrix h w A) := by
  unfold IsMatrix; infer_instance

/-! ### Basic lemmas about the list primitives -/

theorem mem_joinAll {α : Type} {x : α} {ls : List (List α)} :
    x ∈ joinAll ls ↔ ∃ l, l ∈ ls ∧ x ∈ l := by
  induction ls with
  | nil => simp [joinAll]
  | cons l ls ih =>
    simp only [joinAll, List.mem_append, ih, List.mem_cons]
    constructor
    · rintro (hx | ⟨l', hl', hx⟩)
      · exact ⟨l, Or.inl rfl, hx⟩
      · exact ⟨l', Or.inr hl', hx⟩
    · rintro ⟨l', (rfl | hl'), hx⟩
      · exact Or.inl hx
      · exact Or.inr ⟨l', hl', hx⟩

theorem length_joinAll {α : Type} (ls : List (List α)) :
    (joinAll ls).length = (ls.map List.length).sum := by
  induction ls with
  | nil => rfl
  | cons l ls ih => simp [joinAll, ih]

theorem listMin_mem {l : List ℤ} {m : ℤ} (h : listMin l = some m) : m ∈ l := by
  induction l generalizing m with
  | nil => simp [listMin] at h
  | cons x xs ih =>
    simp only [listMin] at h
    cases hxs : listMin xs with
    | none => rw [hxs] at h; simp at h; simp [h]
    | some m' =>
      rw [hxs] at h
      simp only [Option.some.injEq] at h
      rcases le_total x m' with hle | hle
      · have : m = x := by omega
        simp [this]
      · have : m = m' := by omega
        exact List.mem_cons_of_mem _ (this ▸ ih hxs)

theorem listMin_le {l : List ℤ} {m : ℤ} (h : listMin l = some m) :
    ∀ x ∈ l, m ≤ x := by
  induction l generalizing m with
  | nil => simp
  | cons y ys ih =>
    intro x hx
    simp only [listMin] at h
    cases hys : listMin ys with
    | none =>
      rw [hys] at h
      simp only [Option.some.injEq] at h
      cases ys with
      | nil => simp at hx; omega
      | cons a as => simp [listMin] at hys; cases hys' : listMin as <;> simp [hys'] at hys
    | some m' =>
      rw [hys] at h
      simp only [Option.some.injEq] at h
      rcases List.mem_cons.mp hx with rfl | hx'
      · omega
      · have := ih hys x hx'
        omega

theorem listMin_isSome {l : List ℤ} (h : l ≠ []) : (listMin l).isSome := by
  cases l with
  | nil => exact absurd rfl h
  | cons x xs =>
    simp only [listMin]
    cases listMin xs <;> simp

theorem listMin_eq_some {l : List ℤ} {m : ℤ} (hm : m ∈ l)
    (hle : ∀ x ∈ l, m ≤ x) : listMin l = some m := by
  have hne : l ≠ [] := List.ne_nil_of_mem hm
  obtain ⟨m', hm'⟩ := Option.isSome_iff_exists.mp (listMin_isSome hne)
  have h1 : m ≤ m' := hle m' (listMin_mem hm')
  have h2 : m' ≤ m := listMin_le hm' m hm
  rw [hm']
  congr 1
  omega

theorem getD_mem_or_default {α : Type} (l : List α) (n : ℕ) (d : α) :
    l.getD n d = d ∨ l.getD n d ∈ l := by
  induction l generalizing n with
  | nil => left; simp
  | cons a l ih =>
    cases n with
    | zero => right; simp
    | succ n =>
      rcases ih n with h | h
      · left; simpa using h
      · right; simp only [List.getD_cons_succ]; exact List.mem_cons_of_mem _ h

theorem getD_map_of_nil {α β : Type} (f : List α → List β) (hf : f [] = [])
    (l : List (List α)) (r : ℕ) :
    (l.map f).getD r [] = f (l.getD r []) := by
  induction l generalizing r with
  | nil => simp [hf]
  | cons a l ih =>
    cases r with
    | zero => simp
    | succ r => simpa using ih r

theorem range_map_getD {α : Type} (l : List α) (d : α) :
    (List.range l.length).map (fun r => l.getD r d) = l := by
  induction l with
  | nil => rfl
  | cons a l ih =>
    rw [List.length_cons, List.range_succ_eq_map, List.map_cons, List.map_map]
    have hc : ((fun r => (a :: l).getD r d) ∘ (· + 1)) = fun r => l.getD r d := by
      funext r
      simp [Function.comp]
    rw [List.getD_cons_zero, hc, ih]

/-! ### Partition-loop correctness -/

theorem npRandint_ok {lo hi : ℕ} (h : lo < hi) (draw : ℕ) :
    npRandint lo hi draw = .ok (lo + draw % (hi - lo)) := by
  simp [npRandint, h]

theorem npRandint_lt {lo hi : ℕ} (h : lo < hi) (draw : ℕ) :
    lo + draw % (hi - lo) < hi := by
  have := Nat.mod_lt draw (show 0 < hi - lo by omega)
  omega

theorem chunkWidthsGo_spec (L lo hi : ℕ) (draw : ℕ → ℕ) (hlo : 1 ≤ lo)
    (hlt : lo < hi) :
    ∀ fuel i acc, L ≤ acc + fuel →
      ∃ ws, chunkWidthsGo L lo hi draw fuel i acc = .ok ws ∧
        L ≤ acc + ws.sum ∧
        (∀ n < ws.length, acc + (ws.take n).sum < L) ∧
        (∀ x ∈ ws, lo ≤ x ∧ x < hi) := by
  intro fuel
  induction fuel with
  | zero =>
    intro i acc hacc
    refine ⟨[], ?_, by simpa using hacc, by simp, by simp⟩
    simp only [chunkWidthsGo]
    rw [if_neg (by omega)]
  | succ fuel ih =>
    intro i acc hacc
    by_cases hcond : acc < L
    · set wd := lo + draw i % (hi - lo) with hwd
      have hwdlt : wd < hi := npRandint_lt hlt (draw i)
      obtain ⟨ws, hws, hsum, hpre, hbnd⟩ :=
        ih (i + 1) (acc + wd) (by omega)
      refine ⟨wd :: ws, ?_, by simp; omega, ?_, ?_⟩
      · simp only [chunkWidthsGo]
        rw [if_pos hcond, npRandint_ok hlt]
        show (chunkWidthsGo L lo hi draw fuel (i + 1) (acc + wd)).map (wd :: ·)
            = Except.ok (wd :: ws)
        rw [hws]
        rfl
      · intro n hn
        cases n with
        | zero => simpa using hcond
        | succ n =>
          have := hpre n (by simpa using hn)
          simp only [List.take_succ_cons, List.sum_cons]
          omega
      · intro x hx
        rcases List.mem_cons.mp hx with rfl | hx'
        · exact ⟨by omega, hwdlt⟩
        · exact hbnd x hx'
    · refine ⟨[], ?_, by simp; omega, by simp, by simp⟩
      simp only [chunkWidthsGo]
      rw [if_neg hcond]

/-- The loop at `spec_augmentations.py:172-178` / `327-333`: with valid bounds
`1 ≤ lo < hi` it terminates, total width covers the axis, every proper prefix
of widths falls short of the axis, and every width lies in `[lo, hi)`. -/
theorem chunkWidths_spec (L lo hi : ℕ) (draw : ℕ → ℕ) (hlo : 1 ≤ lo)
    (hlt : lo < hi) :
    ∃ ws, chunkWidths L lo hi draw = .ok ws ∧
      L ≤ ws.sum ∧
      (∀ n < ws.length, (ws.take n).sum < L) ∧
      (∀ x ∈ ws, lo ≤ x ∧ x < hi) := by
  obtain ⟨ws, hws, hsum, hpre, hbnd⟩ :=
    chunkWidthsGo_spec L lo hi draw hlo hlt (L + 1) 0 0 (by omega)
  exact ⟨ws, hws, by omega, fun n hn => by have := hpre n hn; omega, hbnd⟩

/-- With inverted or collapsed bounds (`hi ≤ lo`) and a non-trivial axis,
the first width draw raises `ValueError` (numpy `randint` with `low >= high`). -/
theorem chunkWidths_err (L lo hi : ℕ) (draw : ℕ → ℕ) (hle : hi ≤ lo)
    (hL : 0 < L) :
    chunkWidths L lo hi draw = .error .valueError := by
  show chunkWidthsGo L lo hi draw (L + 1) 0 0 = .error .valueError
  simp only [chunkWidthsGo]
  rw [if_pos hL]
  have : ¬ lo < hi := by omega
  simp [npRandint, this]

theorem chunkWidths_ne_nil {L lo hi : ℕ} {draw : ℕ → ℕ} {ws : List ℕ}
    (hws : chunkWidths L lo hi draw = .ok ws) (hL : 0 < L) : ws ≠ [] := by
  intro hnil
  subst hnil
  unfold chunkWidths at hws
  simp only [chunkWidthsGo] at hws
  rw [if_pos hL] at hws
  cases h : npRandint lo hi (draw 0) with
  | error e => rw [h] at hws; exact Except.noConfusion hws
  | ok wd =>
    rw [h] at hws
    have hws' : (chunkWidthsGo L lo hi draw L (0 + 1) (0 + wd)).map (wd :: ·)
        = Except.ok ([] : List ℕ) := hws
    cases h2 : chunkWidthsGo L lo hi draw L (0 + 1) (0 + wd) with
    | error e => rw [h2] at hws'; simp [Except.map] at hws'
    | ok l => rw [h2] at hws'; simp [Except.map] at hws'

/-! ### Chunk slicing and reassembly -/

/-- Consecutive slices `l[idx : idx+w₁]`, `l[idx+w₁ : idx+w₁+w₂]`, …
(Python slicing truncates silently at the end of the list).  Along axis 0
of a matrix this is exactly `data[a:b]` as used by the "freq"/"frec"
transforms. -/
def sliceChunks {α : Type} (l : List α) : List ℕ → ℕ → List (List α)
  | [], _ => []
  | wd :: ws, idx => (l.drop idx).take wd :: sliceChunks l ws (idx + wd)

/-- Column chunks `data[:, idx : idx+w₁]`, … as used by the "time"
transforms. -/
def colSliceChunks (data : Mat) : List ℕ → ℕ → List Mat
  | [], _ => []
  | wd :: ws, idx =>
    data.map (fun row => (row.drop idx).take wd) :: colSliceChunks data ws (idx + wd)

/-- `np.ones(chunk.shape) * mini`: a constant array of the chunk's exact
shape filled with `mini`. -/
def fillLike (mini : ℤ) (c : Mat) : Mat :=
  c.map (fun row => row.map (fun _ => mini))

/-- The reconstruction loop of the dropout transforms: chunk `i` is replaced
by the constant fill when its index was selected (`valid_mask[i] == 0`),
otherwise kept. -/
def reconChunks (mini : ℤ) (dropped : List ℕ) : List Mat → ℕ → List Mat
  | [], _ => []
  | c :: cs, i =>
    (if i ∈ dropped then fillLike mini c else c) :: reconChunks mini dropped cs (i + 1)

/-- `np.concatenate(ms, axis=1)` for matrices of common height `h`:
row `r` of the result is the concatenation of the rows `r`. -/
def hconcat (h : ℕ) (ms : List Mat) : Mat :=
  (List.range h).map fun r => joinAll (ms.map fun m => m.getD r [])

theorem length_sliceChunks {α : Type} (l : List α) (ws : List ℕ) (idx : ℕ) :
    (sliceChunks l ws idx).length = ws.length := by
  induction ws generalizing idx with
  | nil => rfl
  | cons wd ws ih => simp [sliceChunks, ih]

theorem length_colSliceChunks (data : Mat) (ws : List ℕ) (idx : ℕ) :
    (colSliceChunks data ws idx).length = ws.length := by
  induction ws generalizing idx with
  | nil => rfl
  | cons wd ws ih => simp [colSliceChunks, ih]

theorem length_reconChunks (mini : ℤ) (dropped : List ℕ) (cs : List Mat) (i : ℕ) :
    (reconChunks mini dropped cs i).length = cs.length := by
  induction cs generalizing i with
  | nil => rfl
  | cons c cs ih => simp [reconChunks, ih]

/-- When the widths cover the remainder of the list, the consecutive slices
reassemble it exactly. -/
theorem joinAll_sliceChunks {α : Type} (l : List α) :
    ∀ (ws : List ℕ) (idx : ℕ), l.length ≤ idx + ws.sum →
      joinAll (sliceChunks l ws idx) = l.drop idx := by
  intro ws
  induction ws with
  | nil =>
    intro idx hidx
    simp only [List.sum_nil, Nat.add_zero] at hidx
    simp [sliceChunks, joinAll, List.drop_eq_nil_of_le hidx]
  | cons wd ws ih =>
    intro idx hidx
    simp only [sliceChunks, joinAll]
    rw [ih (idx + wd) (by simp at hidx ⊢; omega)]
    rw [← List.drop_drop]
    exact List.take_append_drop wd (l.drop idx)

theorem map_getD_colSliceChunks (data : Mat) (ws : List ℕ) (idx r : ℕ) :
    (colSliceChunks data ws idx).map (fun m => m.getD r [])
      = sliceChunks (data.getD r []) ws idx := by
  induction ws generalizing idx with
  | nil => rfl
  | cons wd ws ih =>
    simp only [colSliceChunks, sliceChunks, List.map_cons, ih]
    congr 1
    exact getD_map_of_nil _ (by simp) data r

theorem getElem?_sliceChunks {α : Type} (l : List α) (ws : List ℕ) (idx j : ℕ) :
    (sliceChunks l ws idx)[j]?
      = ws[j]?.map (fun wd => (l.drop (idx + (ws.take j).sum)).take wd) := by
  induction ws generalizing idx j with
  | nil => simp [sliceChunks]
  | cons wd ws ih =>
    cases j with
    | zero => simp [sliceChunks]
    | succ j =>
      simp only [sliceChunks, List.getElem?_cons_succ, ih, List.take_succ_cons,
        List.sum_cons]
      rw [Nat.add_assoc]

theorem getElem?_colSliceChunks (data : Mat) (ws : List ℕ) (idx j : ℕ) :
    (colSliceChunks data ws idx)[j]?
      = ws[j]?.map
          (fun wd => data.map fun row => (row.drop (idx + (ws.take j).sum)).take wd) := by
  induction ws generalizing idx j with
  | nil => simp [colSliceChunks]
  | cons wd ws ih =>
    cases j with
    | zero => simp [colSliceChunks]
    | succ j =>
      simp only [colSliceChunks, List.getElem?_cons_succ, ih, List.take_succ_cons,
        List.sum_cons]
      rw [Nat.add_assoc]

theorem getElem?_reconChunks (mini : ℤ) (dropped : List ℕ) (cs : List Mat)
    (i j : ℕ) :
    (reconChunks mini dropped cs i)[j]?
      = cs[j]?.map (fun c => if (i + j) ∈ dropped then fillLike mini c else c) := by
  induction cs generalizing i j with
  | nil => simp [reconChunks]
  | cons c cs ih =>
    cases j with
    | zero => simp [reconChunks]
    | succ j =>
      simp only [reconChunks, List.getElem?_cons_succ, ih]
      rw [show i + 1 + j = i + (j + 1) by omega]

theorem reconChunks_nil (mini : ℤ) (cs : List Mat) (i : ℕ) :
    reconChunks mini [] cs i = cs := by
  induction cs generalizing i with
  | nil => rfl
  | cons c cs ih => simp [reconChunks, ih]

theorem mem_reconChunks {mini : ℤ} {dropped : List ℕ} {cs : List Mat} {i : ℕ}
    {m : Mat} (hm : m ∈ reconChunks mini dropped cs i) :
    ∃ c ∈ cs, m = c ∨ m = fillLike mini c := by
  induction cs generalizing i with
  | nil => simp [reconChunks] at hm
  | cons c cs ih =>
    simp only [reconChunks, List.mem_cons] at hm
    rcases hm with rfl | hm'
    · refine ⟨c, List.mem_cons_self c cs, ?_⟩
      by_cases h : i ∈ dropped <;> simp [h]
    · obtain ⟨c', hc', h'⟩ := ih hm'
      exact ⟨c', List.mem_cons_of_mem _ hc', h'⟩

theorem mem_colSliceChunks {data : Mat} {ws : List ℕ} {idx : ℕ} {c : Mat}
    (hc : c ∈ colSliceChunks data ws idx) :
    ∃ a b, c = data.map (fun row => (row.drop a).take b) := by
  induction ws generalizing idx with
  | nil => simp [colSliceChunks] at hc
  | cons wd ws ih =>
    simp only [colSliceChunks, List.mem_cons] at hc
    rcases hc with rfl | hc'
    · exact ⟨idx, wd, rfl⟩
    · exact ih hc'

theorem mem_sliceChunks {α : Type} {l : List α} {ws : List ℕ} {idx : ℕ}
    {c : List α} (hc : c ∈ sliceChunks l ws idx) :
    ∃ a b, c = (l.drop a).take b := by
  induction ws generalizing idx with
  | nil => simp [sliceChunks] at hc
  | cons wd ws ih =>
    simp only [sliceChunks, List.mem_cons] at hc
    rcases hc with rfl | hc'
    · exact ⟨idx, wd, rfl⟩
    · exact ih hc'

theorem mem_of_mem_take_drop {α : Type} {l : List α} {a b : ℕ} {x : α}
    (hx : x ∈ (l.drop a).take b) : x ∈ l :=
  List.mem_of_mem_drop (List.mem_of_mem_take hx)

/-- Shape of `np.concatenate(·, axis=1)`: `h` rows by construction. -/
theorem length_hconcat (h : ℕ) (ms : List Mat) : (hconcat h ms).length = h := by
  simp [hconcat]

theorem mem_hconcat {h : ℕ} {ms : List Mat} {row : List ℤ}
    (hrow : row ∈ hconcat h ms) :
    ∃ r < h, row = joinAll (ms.map fun m => m.getD r []) := by
  simp only [hconcat, List.mem_map, List.mem_range] at hrow
  obtain ⟨r, hr, hrw⟩ := hrow
  exact ⟨r, hr, hrw.symm⟩

/-! ### The transforms of `spec_augmentations.py`

`PIL.Image.resize` is an external-library collaborator; per the spec's
Array Ops contract it is a "resample (resize) to a target shape with a choice
of interpolation kernel".  It is embedded as `resizeNN`, whose output has the
target shape by construction and whose values are obtained by
nearest-neighbour index sampling (the kernel choice of
`random_interpolation()` affects values only, never the shape). -/

/-- Resize `A` to `th` rows by `tw` columns (nearest-neighbour index map). -/
def resizeNN (th tw : ℕ) (A : Mat) : Mat :=
  (List.range th).map fun r =>
    (List.range tw).map fun c =>
      (A.getD (r * A.length / th) []).getD (c * (A.headD []).length / tw) 0

theorem resizeNN_shape (th tw : ℕ) (A : Mat) : IsMatrix th tw (resizeNN th tw A) := by
  constructor
  · simp [resizeNN]
  · intro row hrow
    simp only [resizeNN, List.mem_map, List.mem_range] at hrow
    obtain ⟨r, _, hrw⟩ := hrow
    simp [← hrw]

/-- Mutable state of `FractalTimeStretch` / `FractalFreqStretch`
(`ratio` of the `Augmentation` base class is validated separately by
`augmentationInit` and plays no role in `apply_helper`). -/
structure FTSState where
  min_chunk_size : Option ℕ
  max_chunk_size : Option ℕ
  intra_ratio : ℚ
  rate_lo : ℚ
  rate_hi : ℚ
deriving DecidableEq

/-- Mutable state of `FractalTimeDropout` / `FractalFrecDropout`. -/
structure FDState where
  min_chunk_size : Option ℕ
  max_chunk_size : Option ℕ
  min_chunk : ℕ
  max_chunk : ℕ
deriving DecidableEq

/-- `FractalTimeStretch` lines 163-165: both defaults are `int(w * 0.1)`.
`int(w * 0.1)` on Python floats equals `w / 10` in ℕ for all realistic `w`
(the double nearest 0.1 exceeds 1/10 by less than the distance of
`w / 10`'s fractional part to the next integer). -/
def ftsUpdateBounds (s : FTSState) (w : ℕ) : FTSState :=
  { s with
    min_chunk_size := some (s.min_chunk_size.getD (w / 10)),
    max_chunk_size := some (s.max_chunk_size.getD (w / 10)) }

/-- `FractalFreqStretch` lines 235-237: defaults `int(h*0.01)`, `int(h*0.1)`. -/
def ffsUpdateBounds (s : FTSState) (h : ℕ) : FTSState :=
  { s with
    min_chunk_size := some (s.min_chunk_size.getD (h / 100)),
    max_chunk_size := some (s.max_chunk_size.getD (h / 10)) }

/-- `FractalTimeDropout` lines 317-321: defaults `int(h*0.01)`, `int(h*0.1)`
— computed from the **height** `h` although the time axis `w` is the one
partitioned — followed by the documented min/max swap. -/
def ftdUpdateBounds (s : FDState) (h : ℕ) : FDState :=
  let lo := s.min_chunk_size.getD (h / 100)
  let hi := s.max_chunk_size.getD (h / 10)
  if lo > hi then { s with min_chunk_size := some hi, max_chunk_size := some lo }
  else { s with min_chunk_size := some lo, max_chunk_size := some hi }

/-- `FractalFrecDropout` lines 375-379: both defaults are `int(h*0.1)`,
followed by the min/max swap. -/
def ffdUpdateBounds (s : FDState) (h : ℕ) : FDState :=
  let lo := s.min_chunk_size.getD (h / 10)
  let hi := s.max_chunk_size.getD (h / 10)
  if lo > hi then { s with min_chunk_size := some hi, max_chunk_size := some lo }
  else { s with min_chunk_size := some lo, max_chunk_size := some hi }

/-- The per-chunk stretch loop (lines 180-198): chunk `i` is resampled to
width `int(width * rate)` when its trigger draw is `<= intra_ratio`,
else passed through.  `tdraw i` is the realized `Uniform(0,1)` trigger and
`rdraw i` the realized `Uniform(rate_lo, rate_hi)` stretch rate. -/
def ftsTransformChunks (intra : ℚ) (h : ℕ) (tdraw rdraw : ℕ → ℚ) :
    List ℕ → List Mat → ℕ → List Mat
  | wd :: ws, c :: cs, i =>
    (if tdraw i ≤ intra then resizeNN h (((wd : ℚ) * rdraw i).floor.toNat) c else c)
      :: ftsTransformChunks intra h tdraw rdraw ws cs (i + 1)
  | _, _, _ => []

/-- Same loop for `FractalFreqStretch` (lines 252-270): resampled to height
`int(width * rate)` keeping width `w`. -/
def ffsTransformChunks (intra : ℚ) (w : ℕ) (tdraw rdraw : ℕ → ℚ) :
    List ℕ → List Mat → ℕ → List Mat
  | wd :: ws, c :: cs, i =>
    (if tdraw i ≤ intra then resizeNN (((wd : ℚ) * rdraw i).floor.toNat) w c else c)
      :: ffsTransformChunks intra w tdraw rdraw ws cs (i + 1)
  | _, _, _ => []

/-- `FractalTimeStretch.apply_helper` (lines 160-208).  Returns the
post-call instance state and the result.  The final
`Image.resize(tmp, (temps, freq), LANCZOS)` restores shape `(h, w)`. -/
def ftsApplyHelper (s : FTSState) (wdraw : ℕ → ℕ) (tdraw rdraw : ℕ → ℚ)
    (data : Mat) : FTSState × Except PyErr Mat :=
  let h := data.length
  let w := (data.headD []).length
  let s' := ftsUpdateBounds s w
  match chunkWidths w (s'.min_chunk_size.getD 0) (s'.max_chunk_size.getD 0) wdraw with
  | .error e => (s', .error e)
  | .ok ws =>
    let chunks := colSliceChunks data ws 0
    let stretched := ftsTransformChunks s'.intra_ratio h tdraw rdraw ws chunks 0
    (s', .ok (resizeNN h w (hconcat h stretched)))

/-- `FractalFreqStretch.apply_helper` (lines 232-280). -/
def ffsApplyHelper (s : FTSState) (wdraw : ℕ → ℕ) (tdraw rdraw : ℕ → ℚ)
    (data : Mat) : FTSState × Except PyErr Mat :=
  let h := data.length
  let w := (data.headD []).length
  let s' := ffsUpdateBounds s h
  match chunkWidths h (s'.min_chunk_size.getD 0) (s'.max_chunk_size.getD 0) wdraw with
  | .error e => (s', .error e)
  | .ok ws =>
    let chunks := sliceChunks data ws 0
    let stretched := ffsTransformChunks s'.intra_ratio w tdraw rdraw ws chunks 0
    (s', .ok (resizeNN h w (joinAll stretched)))

/-- `FractalTimeDropout.apply_helper` (lines 313-351).  `wdraw` feeds the
chunk-width draws, `kdraw` the drop-count draw
`np.random.randint(min_chunk, max_chunk+1)`, and `cdraw` the
`np.random.choice` index draws (with replacement). -/
def ftdApplyHelper (s : FDState) (wdraw : ℕ → ℕ) (kdraw : ℕ) (cdraw : ℕ → ℕ)
    (data : Mat) : FDState × Except PyErr Mat :=
  let h := data.length
  let w := (data.headD []).length
  match listMin (joinAll data) with
  | none => (s, .error .valueError)
  | some mini =>
    let s' := ftdUpdateBounds s h
    match chunkWidths w (s'.min_chunk_size.getD 0) (s'.max_chunk_size.getD 0) wdraw with
    | .error e => (s', .error e)
    | .ok ws =>
      let chunks := colSliceChunks data ws 0
      match npRandint s'.min_chunk (s'.max_chunk + 1) kdraw with
      | .error e => (s', .error e)
      | .ok k =>
        match npChoice chunks.length k cdraw with
        | .error e => (s', .error e)
        | .ok dropped => (s', .ok (hconcat h (reconChunks mini dropped chunks 0)))

/-- `FractalFrecDropout.apply_helper` (lines 371-411): the same on axis 0. -/
def ffdApplyHelper (s : FDState) (wdraw : ℕ → ℕ) (kdraw : ℕ) (cdraw : ℕ → ℕ)
    (data : Mat) : FDState × Except PyErr Mat :=
  let h := data.length
  match listMin (joinAll data) with
  | none => (s, .error .valueError)
  | some mini =>
    let s' := ffdUpdateBounds s h
    match chunkWidths h (s'.min_chunk_size.getD 0) (s'.max_chunk_size.getD 0) wdraw with
    | .error e => (s', .error e)
    | .ok ws =>
      let chunks := sliceChunks data ws 0
      match npRandint s'.min_chunk (s'.max_chunk + 1) kdraw with
      | .error e => (s', .error e)
      | .ok k =>
        match npChoice chunks.length k cdraw with
        | .error e => (s', .error e)
        | .ok dropped => (s', .ok (joinAll (reconChunks mini dropped chunks 0)))

/-! ### `augmentations.py`: the `Augmentation` base class and composition -/

/-- `Augmentation.forward` (`augmentations.py:12-13`): returns `x` unchanged.
No `SpecAugmentation` subclass overrides `forward`, so calling any of these
modules (`self.sub_module(x)`, which `torch.nn.Module.__call__` dispatches to
`forward`) is the identity. -/
def augmentationForward (x : Mat) : Mat := x

/-- `FractalStretch.apply_helper` (lines 292-293): invokes the two
sub-transforms via module **call** (`self.fts_func(self.ffs_func(data))`),
i.e. via `forward`, not via `apply_helper`. -/
def fractalStretchApplyHelper (data : Mat) : Mat :=
  augmentationForward (augmentationForward data)

/-- `FractalDropout.apply_helper` (lines 425-426): likewise a double module
call. -/
def fractalDropoutApplyHelper (data : Mat) : Mat :=
  augmentationForward (augmentationForward data)

/-- `Augmentation.__init__` (`augmentations.py:6-10`):
`assert 0.0 <= ratio <= 1.0`, then stores `ratio`. -/
def augmentationInit (r : ℚ) : Except PyErr ℚ :=
  if 0 ≤ r ∧ r ≤ 1 then .ok r else .error .assertionError

/-- `FractalStretch.__init__` (lines 284-290): never calls
`super().__init__`.  Its first statement constructs
`FractalTimeStretch(ratio, …)`, which validates `ratio` (the `assert` of
`Augmentation.__init__` fires first for an out-of-range `ratio`); when the
sub-transform constructs successfully, the assignment
`self.fts_func = <Module>` goes through `torch.nn.Module.__setattr__` with
`self._modules` uninitialized and raises
`AttributeError: cannot assign module before Module.__init__() call`, so
construction never succeeds. -/
def fractalStretchInit (r : ℚ) : Except PyErr ℚ := do
  let _ ← augmentationInit r
  .error .attributeError

/-- `FractalDropout.__init__` (lines 415-423): never calls
`super().__init__` and never validates the caller's `ratio`.
`self.ratio = ratio` stores a plain float (falls through to
`object.__setattr__`, no error); then `self.ftd_func =
FractalTimeDropout(1.0, …)` constructs the sub-transform with the constant
`1.0` (its `assert` trivially passes) and the module assignment raises
`AttributeError` (`self._modules` uninitialized) — the same error for every
`ratio`, in range or not. -/
def fractalDropoutInit (r : ℚ) : Except PyErr ℚ := do
  let _ ← augmentationInit 1
  .error .attributeError

/-- Number of chunks actually replaced by fill: chunk indices `< n` that
occur in the (possibly repeating) `np.random.choice` result. -/
def droppedChunkCount (n : ℕ) (dropped : List ℕ) : ℕ :=
  ((List.range n).filter (fun i => decide (i ∈ dropped))).length

/-- `ComposeAugmentation` (`augmentations.py:36-85`): the pool slots, the
two classifier predicates and the method string. -/
structure Composer (α : Type) where
  pre_process : List α
  process : List α
  post_process : List α
  preRule : α → Bool
  postRule : α → Bool
  method : String

/-- `ComposeAugmentation.compose` + `_compose_pick_one`
(`augmentations.py:56-85`): both slots are reset, then the method string is
dispatched.  `augmentations.py` imports only `torch` and
`typing.Callable`, so the names `random` (line 68) and `nn` (lines 79-82)
are unbound: with method `'pick_one'` the call reaches
`random.randint(0, len(pool) - 1)` and raises `NameError` before any
selection or placement happens; any other method raises the `ValueError`
of line 64.  (`pool` and `draw` — the selection draw the intended
`random.randint` would consume — are never reached.) -/
def composeCompose {α : Type} (c : Composer α) (pool : List α) (draw : ℕ) :
    Except PyErr (Composer α × (List α × List α × List α)) :=
  let c0 := { c with pre_process := [], post_process := [] }
  if c0.method = "pick_one" then .error .nameError
  else .error .valueError

/-! ### Shape and reconstruction lemmas -/

theorem getD_mem_of_lt {α : Type} (l : List α) (r : ℕ) (d : α)
    (h : r < l.length) : l.getD r d ∈ l := by
  induction l generalizing r with
  | nil => simp at h
  | cons a l ih =>
    cases r with
    | zero => simp
    | succ r =>
      simp only [List.getD_cons_succ]
      exact List.mem_cons_of_mem _ (ih r (by simpa using h))

theorem headD_length {h w : ℕ} {data : Mat} (hM : IsMatrix h w data)
    (hh : 1 ≤ h) : (data.headD []).length = w := by
  cases data with
  | nil => exfalso; have := hM.1; simp at this; omega
  | cons row rest => exact hM.2 row (List.mem_cons_self row rest)

theorem getD_row_length {h w : ℕ} {data : Mat} (hM : IsMatrix h w data)
    {r : ℕ} (hr : r < h) : (data.getD r []).length = w :=
  hM.2 _ (getD_mem_of_lt data r [] (by rw [hM.1]; exact hr))

theorem joinAll_ne_nil {h w : ℕ} {data : Mat} (hM : IsMatrix h w data)
    (hh : 1 ≤ h) (hw : 1 ≤ w) : joinAll data ≠ [] := by
  cases data with
  | nil => exfalso; have := hM.1; simp at this; omega
  | cons row rest =>
    have : row.length = w := hM.2 row (List.mem_cons_self row rest)
    simp only [joinAll]
    intro hemp
    rcases List.append_eq_nil.mp hemp with ⟨h1, _⟩
    rw [h1] at this
    simp at this
    omega

/-- Reassembling the untouched column chunks gives back the array
(`np.concatenate` of `data[:, aᵢ:bᵢ]` with covering widths). -/
theorem hconcat_colSliceChunks {h w : ℕ} {data : Mat} (hM : IsMatrix h w data)
    {ws : List ℕ} (hcov : w ≤ ws.sum) :
    hconcat h (colSliceChunks data ws 0) = data := by
  unfold hconcat
  have hcong : ∀ r ∈ List.range h,
      joinAll ((colSliceChunks data ws 0).map (fun m => m.getD r []))
        = data.getD r [] := by
    intro r hr
    rw [map_getD_colSliceChunks,
      joinAll_sliceChunks _ _ _
        (by rw [getD_row_length hM (List.mem_range.mp hr)]; omega),
      List.drop_zero]
  rw [List.map_congr_left hcong, ← hM.1, range_map_getD]

theorem recon_row_lengths (mini : ℤ) (dropped : List ℕ) (cs : List Mat)
    (i r : ℕ) :
    (reconChunks mini dropped cs i).map (fun m => (m.getD r []).length)
      = cs.map (fun m => (m.getD r []).length) := by
  induction cs generalizing i with
  | nil => rfl
  | cons c cs ih =>
    simp only [reconChunks, List.map_cons, ih]
    congr 1
    by_cases hd : i ∈ dropped
    · simp only [if_pos hd, fillLike]
      rw [getD_map_of_nil _ (by simp) c r]
      simp
    · simp [hd]

theorem recon_lengths (mini : ℤ) (dropped : List ℕ) (cs : List Mat) (i : ℕ) :
    (reconChunks mini dropped cs i).map List.length = cs.map List.length := by
  induction cs generalizing i with
  | nil => rfl
  | cons c cs ih =>
    simp only [reconChunks, List.map_cons, ih]
    congr 1
    by_cases hd : i ∈ dropped
    · simp [hd, fillLike]
    · simp [hd]

/-- Shape of the time-dropout reconstruction: `h` rows of length `w`. -/
theorem ftd_recon_shape {h w : ℕ} {data : Mat} (hM : IsMatrix h w data)
    {ws : List ℕ} (hcov : w ≤ ws.sum) (mini : ℤ) (dropped : List ℕ) :
    IsMatrix h w (hconcat h (reconChunks mini dropped (colSliceChunks data ws 0) 0)) := by
  refine ⟨length_hconcat _ _, ?_⟩
  intro row hrow
  obtain ⟨r, hr, rfl⟩ := mem_hconcat hrow
  have key : ∀ cs : List Mat,
      (joinAll (cs.map fun m => m.getD r [])).length
        = (cs.map fun m => (m.getD r []).length).sum := by
    intro cs
    rw [length_joinAll, List.map_map]
    rfl
  rw [key, recon_row_lengths, ← key, map_getD_colSliceChunks,
    joinAll_sliceChunks _ _ _ (by rw [getD_row_length hM hr]; omega),
    List.drop_zero]
  exact getD_row_length hM hr

/-- Shape of the frec-dropout reconstruction. -/
theorem ffd_recon_shape {h w : ℕ} {data : Mat} (hM : IsMatrix h w data)
    {ws : List ℕ} (hcov : h ≤ ws.sum) (mini : ℤ) (dropped : List ℕ) :
    IsMatrix h w (joinAll (reconChunks mini dropped (sliceChunks data ws 0) 0)) := by
  constructor
  · rw [length_joinAll, recon_lengths, ← length_joinAll,
      joinAll_sliceChunks _ _ _ (by rw [hM.1]; omega), List.drop_zero, hM.1]
  · intro row hrow
    obtain ⟨mat, hmat, hrowm⟩ := mem_joinAll.mp hrow
    obtain ⟨c, hc, hcase⟩ := mem_reconChunks hmat
    obtain ⟨a, b, rfl⟩ := mem_sliceChunks hc
    rcases hcase with rfl | rfl
    · exact hM.2 row (mem_of_mem_take_drop hrowm)
    · simp only [fillLike, List.map_map, List.mem_map] at hrowm
      obtain ⟨row', hrow', rfl⟩ := hrowm
      simp only [Function.comp, List.length_map]
      exact hM.2 row' (mem_of_mem_take_drop hrow')

/-! ### Run characterizations of the four `apply_helper`s -/

theorem ftsUpdateBounds_some (lo hi : ℕ) (intra rl rh : ℚ) (n : ℕ) :
    ftsUpdateBounds ⟨some lo, some hi, intra, rl, rh⟩ n
      = ⟨some lo, some hi, intra, rl, rh⟩ := by
  simp [ftsUpdateBounds]

theorem ffsUpdateBounds_some (lo hi : ℕ) (intra rl rh : ℚ) (n : ℕ) :
    ffsUpdateBounds ⟨some lo, some hi, intra, rl, rh⟩ n
      = ⟨some lo, some hi, intra, rl, rh⟩ := by
  simp [ffsUpdateBounds]

theorem ftdUpdateBounds_noswap {lo hi : ℕ} (hle : lo ≤ hi) (mc Mc n : ℕ) :
    ftdUpdateBounds ⟨some lo, some hi, mc, Mc⟩ n = ⟨some lo, some hi, mc, Mc⟩ := by
  have : ¬ lo > hi := by omega
  simp [ftdUpdateBounds, this]

theorem ffdUpdateBounds_noswap {lo hi : ℕ} (hle : lo ≤ hi) (mc Mc n : ℕ) :
    ffdUpdateBounds ⟨some lo, some hi, mc, Mc⟩ n = ⟨some lo, some hi, mc, Mc⟩ := by
  have : ¬ lo > hi := by omega
  simp [ffdUpdateBounds, this]

theorem ftdApplyHelper_run (h w lo hi mc Mc : ℕ) (data : Mat)
    (wdraw cdraw : ℕ → ℕ) (kdraw : ℕ)
    (hM : IsMatrix h w data) (hh : 1 ≤ h) (hw : 1 ≤ w)
    (hlo : 1 ≤ lo) (hlt : lo < hi) (hk : mc ≤ Mc) :
    ∃ mini ws,
      listMin (joinAll data) = some mini ∧
      chunkWidths w lo hi wdraw = .ok ws ∧
      w ≤ ws.sum ∧ (∀ n < ws.length, (ws.take n).sum < w) ∧
      (∀ x ∈ ws, lo ≤ x ∧ x < hi) ∧
      ftdApplyHelper ⟨some lo, some hi, mc, Mc⟩ wdraw kdraw cdraw data
        = (⟨some lo, some hi, mc, Mc⟩,
           .ok (hconcat h (reconChunks mini
             ((List.range (mc + kdraw % (Mc + 1 - mc))).map fun j => cdraw j % ws.length)
             (colSliceChunks data ws 0) 0))) := by
  obtain ⟨mini, hmini⟩ :=
    Option.isSome_iff_exists.mp (listMin_isSome (joinAll_ne_nil hM hh hw))
  obtain ⟨ws, hws, hsum, hpref, hbnd⟩ := chunkWidths_spec w lo hi wdraw hlo hlt
  have hwsne : ws ≠ [] := chunkWidths_ne_nil hws hw
  refine ⟨mini, ws, hmini, hws, hsum, hpref, hbnd, ?_⟩
  have hW : (data.headD []).length = w := headD_length hM hh
  have hkr : npRandint mc (Mc + 1) kdraw = .ok (mc + kdraw % (Mc + 1 - mc)) :=
    npRandint_ok (by omega) kdraw
  have hnc : npChoice (colSliceChunks data ws 0).length
      (mc + kdraw % (Mc + 1 - mc)) cdraw
      = .ok ((List.range (mc + kdraw % (Mc + 1 - mc))).map
          fun j => cdraw j % ws.length) := by
    rw [length_colSliceChunks]
    unfold npChoice
    rw [if_neg fun h0 => hwsne (List.length_eq_zero.mp h0)]
  simp only [ftdApplyHelper, hW, hM.1, hmini,
    ftdUpdateBounds_noswap (le_of_lt hlt), Option.getD_some, hws, hkr, hnc]

theorem ffdApplyHelper_run (h w lo hi mc Mc : ℕ) (data : Mat)
    (wdraw cdraw : ℕ → ℕ) (kdraw : ℕ)
    (hM : IsMatrix h w data) (hh : 1 ≤ h) (hw : 1 ≤ w)
    (hlo : 1 ≤ lo) (hlt : lo < hi) (hk : mc ≤ Mc) :
    ∃ mini ws,
      listMin (joinAll data) = some mini ∧
      chunkWidths h lo hi wdraw = .ok ws ∧
      h ≤ ws.sum ∧ (∀ n < ws.length, (ws.take n).sum < h) ∧
      (∀ x ∈ ws, lo ≤ x ∧ x < hi) ∧
      ffdApplyHelper ⟨some lo, some hi, mc, Mc⟩ wdraw kdraw cdraw data
        = (⟨some lo, some hi, mc, Mc⟩,
           .ok (joinAll (reconChunks mini
             ((List.range (mc + kdraw % (Mc + 1 - mc))).map fun j => cdraw j % ws.length)
             (sliceChunks data ws 0) 0))) := by
  obtain ⟨mini, hmini⟩ :=
    Option.isSome_iff_exists.mp (listMin_isSome (joinAll_ne_nil hM hh hw))
  obtain ⟨ws, hws, hsum, hpref, hbnd⟩ := chunkWidths_spec h lo hi wdraw hlo hlt
  have hwsne : ws ≠ [] := chunkWidths_ne_nil hws hh
  refine ⟨mini, ws, hmini, hws, hsum, hpref, hbnd, ?_⟩
  have hkr : npRandint mc (Mc + 1) kdraw = .ok (mc + kdraw % (Mc + 1 - mc)) :=
    npRandint_ok (by omega) kdraw
  have hnc : npChoice (sliceChunks data ws 0).length
      (mc + kdraw % (Mc + 1 - mc)) cdraw
      = .ok ((List.range (mc + kdraw % (Mc + 1 - mc))).map
          fun j => cdraw j % ws.length) := by
    rw [length_sliceChunks]
    unfold npChoice
    rw [if_neg fun h0 => hwsne (List.length_eq_zero.mp h0)]
  simp only [ffdApplyHelper, hM.1, hmini,
    ffdUpdateBounds_noswap (le_of_lt hlt), Option.getD_some, hws, hkr, hnc]

theorem ftsApplyHelper_run (h w lo hi : ℕ) (intra rl rh : ℚ) (data : Mat)
    (wdraw : ℕ → ℕ) (tdraw rdraw : ℕ → ℚ)
    (hM : IsMatrix h w data) (hh : 1 ≤ h)
    (hlo : 1 ≤ lo) (hlt : lo < hi) :
    ∃ ws, chunkWidths w lo hi wdraw = .ok ws ∧
      ftsApplyHelper ⟨some lo, some hi, intra, rl, rh⟩ wdraw tdraw rdraw data
        = (⟨some lo, some hi, intra, rl, rh⟩,
           .ok (resizeNN h w (hconcat h
             (ftsTransformChunks intra h tdraw rdraw ws (colSliceChunks data ws 0) 0)))) := by
  obtain ⟨ws, hws, _, _, _⟩ := chunkWidths_spec w lo hi wdraw hlo hlt
  refine ⟨ws, hws, ?_⟩
  have hW : (data.headD []).length = w := headD_length hM hh
  simp only [ftsApplyHelper, hW, hM.1, ftsUpdateBounds_some, Option.getD_some, hws]

theorem ffsApplyHelper_run (h w lo hi : ℕ) (intra rl rh : ℚ) (data : Mat)
    (wdraw : ℕ → ℕ) (tdraw rdraw : ℕ → ℚ)
    (hM : IsMatrix h w data) (hh : 1 ≤ h)
    (hlo : 1 ≤ lo) (hlt : lo < hi) :
    ∃ ws, chunkWidths h lo hi wdraw = .ok ws ∧
      ffsApplyHelper ⟨some lo, some hi, intra, rl, rh⟩ wdraw tdraw rdraw data
        = (⟨some lo, some hi, intra, rl, rh⟩,
           .ok (resizeNN h w (joinAll
             (ffsTransformChunks intra w tdraw rdraw ws (sliceChunks data ws 0) 0)))) := by
  obtain ⟨ws, hws, _, _, _⟩ := chunkWidths_spec h lo hi wdraw hlo hlt
  refine ⟨ws, hws, ?_⟩
  have hW : (data.headD []).length = w := headD_length hM hh
  simp only [ffsApplyHelper, hW, hM.1, ffsUpdateBounds_some, Option.getD_some, hws]

/-! ### Minimum preservation for the dropout family -/

theorem ftd_out_ge {h w : ℕ} {data : Mat} (hM : IsMatrix h w data)
    {mini : ℤ} (hmini : listMin (joinAll data) = some mini)
    (ws dropped : List ℕ) :
    ∀ x ∈ joinAll (hconcat h (reconChunks mini dropped (colSliceChunks data ws 0) 0)),
      mini ≤ x := by
  intro x hx
  obtain ⟨row, hrow, hxrow⟩ := mem_joinAll.mp hx
  obtain ⟨r, hr, rfl⟩ := mem_hconcat hrow
  obtain ⟨l, hl, hxl⟩ := mem_joinAll.mp hxrow
  obtain ⟨mat, hmat, rfl⟩ := List.mem_map.mp hl
  obtain ⟨c, hc, hcase⟩ := mem_reconChunks hmat
  obtain ⟨a, b, rfl⟩ := mem_colSliceChunks hc
  rcases hcase with rfl | rfl
  · rw [getD_map_of_nil _ (by simp)] at hxl
    have hxd : x ∈ data.getD r [] := mem_of_mem_take_drop hxl
    rcases getD_mem_or_default data r [] with hd | hd
    · rw [hd] at hxd; simp at hxd
    · exact listMin_le hmini x (mem_joinAll.mpr ⟨_, hd, hxd⟩)
  · simp only [fillLike] at hxl
    rw [getD_map_of_nil _ (by simp)] at hxl
    obtain ⟨y, _, rfl⟩ := List.mem_map.mp hxl
    exact le_refl mini

theorem ftd_out_mem {h w : ℕ} {data : Mat} (hM : IsMatrix h w data)
    (hh : 1 ≤ h) (mini : ℤ) {ws dropped : List ℕ}
    (hws1 : ∀ x ∈ ws, 1 ≤ x) (hpref : ∀ n < ws.length, (ws.take n).sum < w)
    {j : ℕ} (hjmem : j ∈ dropped) (hj : j < ws.length) :
    mini ∈ joinAll (hconcat h (reconChunks mini dropped (colSliceChunks data ws 0) 0)) := by
  set wd := ws[j] with hwd
  have hwj : ws[j]? = some wd := List.getElem?_eq_getElem hj
  set st := (ws.take j).sum with hst
  have hcj : (colSliceChunks data ws 0)[j]?
      = some (data.map fun row => (row.drop st).take wd) := by
    rw [getElem?_colSliceChunks, hwj]
    simp
  have hrj : (reconChunks mini dropped (colSliceChunks data ws 0) 0)[j]?
      = some (fillLike mini (data.map fun row => (row.drop st).take wd)) := by
    rw [getElem?_reconChunks, hcj]
    simp [hjmem]
  set fillc := fillLike mini (data.map fun row => (row.drop st).take wd) with hfc
  have hfmem : fillc ∈ reconChunks mini dropped (colSliceChunks data ws 0) 0 :=
    List.getElem?_mem hrj
  -- row 0 of the fill chunk is a nonempty run of `mini`
  have hrow0 : fillc.getD 0 []
      = (((data.getD 0 []).drop st).take wd).map (fun _ => mini) := by
    rw [hfc]
    unfold fillLike
    rw [getD_map_of_nil _ (by simp), getD_map_of_nil _ (by simp)]
  have hstw : st < w := by
    have := hpref j hj
    omega
  have hwd1 : 1 ≤ wd := hws1 _ (List.getElem_mem hj)
  have hlen0 : (data.getD 0 []).length = w := getD_row_length hM (by omega)
  have hne : (((data.getD 0 []).drop st).take wd) ≠ [] := by
    intro hemp
    have := congrArg List.length hemp
    rw [List.length_take, List.length_drop, hlen0] at this
    simp only [List.length_nil] at this
    omega
  have hminimem : mini ∈ fillc.getD 0 [] := by
    rw [hrow0]
    cases hsl : ((data.getD 0 []).drop st).take wd with
    | nil => exact absurd hsl hne
    | cons y ys => simp
  have hrowmem : fillc.getD 0 []
      ∈ (reconChunks mini dropped (colSliceChunks data ws 0) 0).map
          (fun m => m.getD 0 []) :=
    List.mem_map_of_mem _ hfmem
  have h0 : joinAll ((reconChunks mini dropped (colSliceChunks data ws 0) 0).map
      fun m => m.getD 0 [])
      ∈ hconcat h (reconChunks mini dropped (colSliceChunks data ws 0) 0) := by
    unfold hconcat
    exact List.mem_map_of_mem _ (List.mem_range.mpr (by omega))
  exact mem_joinAll.mpr ⟨_, h0, mem_joinAll.mpr ⟨_, hrowmem, hminimem⟩⟩

theorem ftd_min_preserved {h w : ℕ} {data : Mat} (hM : IsMatrix h w data)
    (hh : 1 ≤ h) {mini : ℤ} (hmini : listMin (joinAll data) = some mini)
    {ws dropped : List ℕ} (hcov : w ≤ ws.sum)
    (hws1 : ∀ x ∈ ws, 1 ≤ x) (hpref : ∀ n < ws.length, (ws.take n).sum < w)
    (hdropsub : ∀ i ∈ dropped, i < ws.length) :
    listMin (joinAll (hconcat h (reconChunks mini dropped (colSliceChunks data ws 0) 0)))
      = some mini := by
  cases dropped with
  | nil =>
    rw [reconChunks_nil, hconcat_colSliceChunks hM hcov]
    exact hmini
  | cons j tl =>
    exact listMin_eq_some
      (ftd_out_mem hM hh mini hws1 hpref (List.mem_cons_self j tl)
        (hdropsub j (List.mem_cons_self j tl)))
      (ftd_out_ge hM hmini ws (j :: tl))

theorem ffd_out_ge {h w : ℕ} {data : Mat} (hM : IsMatrix h w data)
    {mini : ℤ} (hmini : listMin (joinAll data) = some mini)
    (ws dropped : List ℕ) :
    ∀ x ∈ joinAll (joinAll (reconChunks mini dropped (sliceChunks data ws 0) 0)),
      mini ≤ x := by
  intro x hx
  obtain ⟨row, hrow, hxrow⟩ := mem_joinAll.mp hx
  obtain ⟨mat, hmat, hrowm⟩ := mem_joinAll.mp hrow
  obtain ⟨c, hc, hcase⟩ := mem_reconChunks hmat
  obtain ⟨a, b, rfl⟩ := mem_sliceChunks hc
  rcases hcase with rfl | rfl
  · exact listMin_le hmini x
      (mem_joinAll.mpr ⟨row, mem_of_mem_take_drop hrowm, hxrow⟩)
  · simp only [fillLike, List.mem_map] at hrowm
    obtain ⟨row', _, rfl⟩ := hrowm
    obtain ⟨y, _, rfl⟩ := List.mem_map.mp hxrow
    exact le_refl mini

theorem ffd_out_mem {h w : ℕ} {data : Mat} (hM : IsMatrix h w data)
    (hw : 1 ≤ w) (mini : ℤ) {ws dropped : List ℕ}
    (hws1 : ∀ x ∈ ws, 1 ≤ x) (hpref : ∀ n < ws.length, (ws.take n).sum < h)
    {j : ℕ} (hjmem : j ∈ dropped) (hj : j < ws.length) :
    mini ∈ joinAll (joinAll (reconChunks mini dropped (sliceChunks data ws 0) 0)) := by
  set wd := ws[j] with hwd
  have hwj : ws[j]? = some wd := List.getElem?_eq_getElem hj
  set st := (ws.take j).sum with hst
  have hcj : (sliceChunks data ws 0)[j]? = some ((data.drop st).take wd) := by
    rw [getElem?_sliceChunks, hwj]
    simp
  have hrj : (reconChunks mini dropped (sliceChunks data ws 0) 0)[j]?
      = some (fillLike mini ((data.drop st).take wd)) := by
    rw [getElem?_reconChunks, hcj]
    simp [hjmem]
  have hfmem : fillLike mini ((data.drop st).take wd)
      ∈ reconChunks mini dropped (sliceChunks data ws 0) 0 :=
    List.getElem?_mem hrj
  have hsth : st < h := by
    have := hpref j hj
    omega
  have hwd1 : 1 ≤ wd := hws1 _ (List.getElem_mem hj)
  have hcne : (data.drop st).take wd ≠ [] := by
    intro hemp
    have := congrArg List.length hemp
    rw [List.length_take, List.length_drop, hM.1] at this
    simp only [List.length_nil] at this
    omega
  cases hc : (data.drop st).take wd with
  | nil => exact absurd hc hcne
  | cons row' rest =>
    have hrow' : row' ∈ (data.drop st).take wd := by rw [hc]; simp
    have hrowdata : row' ∈ data := mem_of_mem_take_drop hrow'
    have hrowlen : row'.length = w := hM.2 row' hrowdata
    have hrowne : row' ≠ [] := by
      intro hemp
      rw [hemp] at hrowlen
      simp at hrowlen
      omega
    have hfillrow : row'.map (fun _ => mini)
        ∈ fillLike mini ((data.drop st).take wd) := by
      unfold fillLike
      exact List.mem_map_of_mem _ hrow'
    have hminirow : mini ∈ row'.map (fun _ => mini) := by
      cases hr : row' with
      | nil => exact absurd hr hrowne
      | cons y ys => simp
    refine mem_joinAll.mpr ⟨row'.map (fun _ => mini), ?_, hminirow⟩
    exact mem_joinAll.mpr ⟨_, hfmem, hfillrow⟩

theorem ffd_min_preserved {h w : ℕ} {data : Mat} (hM : IsMatrix h w data)
    (hw : 1 ≤ w) {mini : ℤ} (hmini : listMin (joinAll data) = some mini)
    {ws dropped : List ℕ} (hcov : h ≤ ws.sum)
    (hws1 : ∀ x ∈ ws, 1 ≤ x) (hpref : ∀ n < ws.length, (ws.take n).sum < h)
    (hdropsub : ∀ i ∈ dropped, i < ws.length) :
    listMin (joinAll (joinAll (reconChunks mini dropped (sliceChunks data ws 0) 0)))
      = some mini := by
  cases dropped with
  | nil =>
    rw [reconChunks_nil, joinAll_sliceChunks _ _ _ (by rw [hM.1]; omega),
      List.drop_zero]
    exact hmini
  | cons j tl =>
    exact listMin_eq_some
      (ffd_out_mem hM hw mini hws1 hpref (List.mem_cons_self j tl)
        (hdropsub j (List.mem_cons_self j tl)))
      (ffd_out_ge hM hmini ws (j :: tl))

/-! ### State projections, memoization idempotence, error propagation -/

theorem ftsApplyHelper_fst (s : FTSState) (wdraw : ℕ → ℕ) (tdraw rdraw : ℕ → ℚ)
    (data : Mat) :
    (ftsApplyHelper s wdraw tdraw rdraw data).1
      = ftsUpdateBounds s (data.headD []).length := by
  simp only [ftsApplyHelper]
  split <;> rfl

theorem ftdApplyHelper_fst (t : FDState) (wdraw : ℕ → ℕ) (kdraw : ℕ)
    (cdraw : ℕ → ℕ) (data : Mat) (hne : joinAll data ≠ []) :
    (ftdApplyHelper t wdraw kdraw cdraw data).1 = ftdUpdateBounds t data.length := by
  obtain ⟨mini, hmini⟩ := Option.isSome_iff_exists.mp (listMin_isSome hne)
  simp only [ftdApplyHelper, hmini]
  split
  · rfl
  · split
    · rfl
    · split <;> rfl

theorem ftdApplyHelper_fst_cases (t : FDState) (wdraw : ℕ → ℕ) (kdraw : ℕ)
    (cdraw : ℕ → ℕ) (data : Mat) :
    (ftdApplyHelper t wdraw kdraw cdraw data).1 = t ∨
    (ftdApplyHelper t wdraw kdraw cdraw data).1 = ftdUpdateBounds t data.length := by
  by_cases hne : joinAll data = []
  · left
    simp only [ftdApplyHelper]
    have : listMin (joinAll data) = none := by rw [hne]; rfl
    rw [this]
  · right
    exact ftdApplyHelper_fst t wdraw kdraw cdraw data hne

theorem ftsUpdateBounds_idem (s : FTSState) (n n' : ℕ) :
    ftsUpdateBounds (ftsUpdateBounds s n) n' = ftsUpdateBounds s n := by
  simp [ftsUpdateBounds]

theorem ftsUpdateBounds_isSome (s : FTSState) (n : ℕ) :
    (ftsUpdateBounds s n).min_chunk_size.isSome
      ∧ (ftsUpdateBounds s n).max_chunk_size.isSome := by
  simp [ftsUpdateBounds]

theorem ftdUpdateBounds_fields (s : FDState) (n : ℕ) :
    ∃ a b, a ≤ b ∧ ftdUpdateBounds s n
      = ⟨some a, some b, s.min_chunk, s.max_chunk⟩ := by
  unfold ftdUpdateBounds
  by_cases hc : s.min_chunk_size.getD (n / 100) > s.max_chunk_size.getD (n / 10)
  · refine ⟨s.max_chunk_size.getD (n / 10), s.min_chunk_size.getD (n / 100),
      by omega, ?_⟩
    rw [if_pos hc]
  · refine ⟨s.min_chunk_size.getD (n / 100), s.max_chunk_size.getD (n / 10),
      by omega, ?_⟩
    rw [if_neg hc]

theorem ftdUpdateBounds_idem (s : FDState) (n n' : ℕ) :
    ftdUpdateBounds (ftdUpdateBounds s n) n' = ftdUpdateBounds s n := by
  obtain ⟨a, b, hab, heq⟩ := ftdUpdateBounds_fields s n
  rw [heq]
  exact ftdUpdateBounds_noswap hab _ _ _

theorem ftdUpdateBounds_isSome (s : FDState) (n : ℕ) :
    (ftdUpdateBounds s n).min_chunk_size.isSome
      ∧ (ftdUpdateBounds s n).max_chunk_size.isSome := by
  obtain ⟨a, b, _, heq⟩ := ftdUpdateBounds_fields s n
  rw [heq]
  exact ⟨rfl, rfl⟩

/-- With `max_chunk_size <= min_chunk_size` (no swap exists in the stretch
classes) the width draw of `FractalTimeStretch` raises `ValueError`. -/
theorem ftsApplyHelper_err (h w lo hi : ℕ) (intra rl rh : ℚ) (data : Mat)
    (wdraw : ℕ → ℕ) (tdraw rdraw : ℕ → ℚ)
    (hM : IsMatrix h w data) (hh : 1 ≤ h) (hw : 1 ≤ w) (hle : hi ≤ lo) :
    (ftsApplyHelper ⟨some lo, some hi, intra, rl, rh⟩ wdraw tdraw rdraw data).2
      = .error .valueError := by
  have hW : (data.headD []).length = w := headD_length hM hh
  have hcw := chunkWidths_err w lo hi wdraw hle (by omega)
  simp only [ftsApplyHelper, hW, ftsUpdateBounds_some, Option.getD_some, hcw]

/-! ### Claim theorems -/

/-- C1: for every valid 2-D input of shape `(h, w)` (and any valid
configuration: explicit bounds `1 ≤ lo < hi`, drop-count bounds
`mc ≤ Mc`), every Fractal Stretch and Fractal Dropout transform —
`FractalTimeStretch`, `FractalFreqStretch`, `FractalTimeDropout`,
`FractalFrecDropout`, and the two-axis composites `FractalStretch` and
`FractalDropout` — returns an array of shape `(h, w)`, the shape of the
input. -/
theorem c1_fractal_transforms_preserve_shape
    (h w lo hi mc Mc : ℕ) (intra rl rh : ℚ) (data : Mat)
    (wdraw cdraw : ℕ → ℕ) (kdraw : ℕ) (tdraw rdraw : ℕ → ℚ)
    (hM : IsMatrix h w data) (hh : 1 ≤ h) (hw : 1 ≤ w)
    (hlo : 1 ≤ lo) (hlt : lo < hi) (hk : mc ≤ Mc) :
    (∃ out, (ftsApplyHelper ⟨some lo, some hi, intra, rl, rh⟩ wdraw tdraw rdraw data).2
        = .ok out ∧ IsMatrix h w out)
    ∧ (∃ out, (ffsApplyHelper ⟨some lo, some hi, intra, rl, rh⟩ wdraw tdraw rdraw data).2
        = .ok out ∧ IsMatrix h w out)
    ∧ (∃ out, (ftdApplyHelper ⟨some lo, some hi, mc, Mc⟩ wdraw kdraw cdraw data).2
        = .ok out ∧ IsMatrix h w out)
    ∧ (∃ out, (ffdApplyHelper ⟨some lo, some hi, mc, Mc⟩ wdraw kdraw cdraw data).2
        = .ok out ∧ IsMatrix h w out)
    ∧ IsMatrix h w (fractalStretchApplyHelper data)
    ∧ IsMatrix h w (fractalDropoutApplyHelper data) := by
  refine ⟨?_, ?_, ?_, ?_, hM, hM⟩
  · obtain ⟨ws, hws, heq⟩ :=
      ftsApplyHelper_run h w lo hi intra rl rh data wdraw tdraw rdraw hM hh hlo hlt
    exact ⟨_, by rw [heq], resizeNN_shape h w _⟩
  · obtain ⟨ws, hws, heq⟩ :=
      ffsApplyHelper_run h w lo hi intra rl rh data wdraw tdraw rdraw hM hh hlo hlt
    exact ⟨_, by rw [heq], resizeNN_shape h w _⟩
  · obtain ⟨mini, ws, hmini, hws, hsum, hpref, hbnd, heq⟩ :=
      ftdApplyHelper_run h w lo hi mc Mc data wdraw cdraw kdraw hM hh hw hlo hlt hk
    exact ⟨_, by rw [heq], ftd_recon_shape hM hsum mini _⟩
  · obtain ⟨mini, ws, hmini, hws, hsum, hpref, hbnd, heq⟩ :=
      ffdApplyHelper_run h w lo hi mc Mc data wdraw cdraw kdraw hM hh hw hlo hlt hk
    exact ⟨_, by rw [heq], ffd_recon_shape hM hsum mini _⟩

/-- Witness for C1 at a concrete 2×3 array and configuration. -/
theorem c1_witness :
    (∃ out, (ftsApplyHelper ⟨some 1, some 2, 3/10, 4/5, 6/5⟩ (fun _ => 0)
        (fun _ => 1) (fun _ => 1) [[0, 1, 2], [3, 4, 5]]).2
        = .ok out ∧ IsMatrix 2 3 out)
    ∧ (∃ out, (ffsApplyHelper ⟨some 1, some 2, 3/10, 4/5, 6/5⟩ (fun _ => 0)
        (fun _ => 1) (fun _ => 1) [[0, 1, 2], [3, 4, 5]]).2
        = .ok out ∧ IsMatrix 2 3 out)
    ∧ (∃ out, (ftdApplyHelper ⟨some 1, some 2, 1, 1⟩ (fun _ => 0) 0 (fun _ => 0)
        [[0, 1, 2], [3, 4, 5]]).2 = .ok out ∧ IsMatrix 2 3 out)
    ∧ (∃ out, (ffdApplyHelper ⟨some 1, some 2, 1, 1⟩ (fun _ => 0) 0 (fun _ => 0)
        [[0, 1, 2], [3, 4, 5]]).2 = .ok out ∧ IsMatrix 2 3 out)
    ∧ IsMatrix 2 3 (fractalStretchApplyHelper [[0, 1, 2], [3, 4, 5]])
    ∧ IsMatrix 2 3 (fractalDropoutApplyHelper [[0, 1, 2], [3, 4, 5]]) :=
  c1_fractal_transforms_preserve_shape 2 3 1 2 1 1 (3/10) (4/5) (6/5)
    [[0, 1, 2], [3, 4, 5]] (fun _ => 0) (fun _ => 0) 0 (fun _ => 1) (fun _ => 1)
    (by decide) (by decide) (by decide) (by decide) (by decide) (by decide)

/-- C2 counterexample: `np.random.choice(range(n), size=k)` samples **with**
replacement (the numpy default, `spec_augmentations.py:339`), so the draw
stream constantly 0 is a legitimate outcome: with `n = 2` chunks and drop
count `k = 2 ≤ n`, the selected indices are `[0, 0]` and only **1** chunk is
filled, not the `k = 2` distinct chunks the claim promises. -/
theorem c2_counterexample :
    npChoice 2 2 (fun _ => 0) = Except.ok [0, 0]
    ∧ droppedChunkCount 2 [0, 0] = 1 :=
  ⟨rfl, rfl⟩

/-- C2 amended: the drop indices are sampled uniformly **with replacement**
(`np.random.choice` default), so for `n ≥ 1` chunks and a drop count
`k ≥ 1` the draw succeeds, yields `k` indices each `< n`, and the number of
chunks actually replaced is the number of distinct drawn indices — at least
1 and at most `min k n`, but not necessarily `k` even when `k ≤ n`. -/
theorem c2_with_replacement_drop_count (n k : ℕ) (cdraw : ℕ → ℕ)
    (hn : 1 ≤ n) (hk : 1 ≤ k) :
    ∃ ds, npChoice n k cdraw = .ok ds ∧ ds.length = k ∧ (∀ i ∈ ds, i < n)
      ∧ 1 ≤ droppedChunkCount n ds ∧ droppedChunkCount n ds ≤ k
      ∧ droppedChunkCount n ds ≤ n := by
  set ds := (List.range k).map (fun j => cdraw j % n) with hds
  have hmem : ∀ i ∈ ds, i < n := by
    intro i hi
    rw [hds] at hi
    obtain ⟨j, _, rfl⟩ := List.mem_map.mp hi
    exact Nat.mod_lt _ (by omega)
  have hlen : ds.length = k := by simp [hds]
  refine ⟨ds, ?_, hlen, hmem, ?_, ?_, ?_⟩
  · unfold npChoice
    rw [if_neg (by omega)]
  · have h0 : cdraw 0 % n ∈ ds := by
      rw [hds]
      exact List.mem_map_of_mem _ (List.mem_range.mpr (by omega))
    have hfil : cdraw 0 % n ∈ (List.range n).filter (fun i => decide (i ∈ ds)) := by
      rw [List.mem_filter]
      exact ⟨List.mem_range.mpr (Nat.mod_lt _ (by omega)), decide_eq_true h0⟩
    unfold droppedChunkCount
    have h1 := List.length_pos.mpr (List.ne_nil_of_mem hfil)
    omega
  · unfold droppedChunkCount
    have hnd : ((List.range n).filter (fun i => decide (i ∈ ds))).Nodup :=
      List.Nodup.filter _ (List.nodup_range n)
    have hsub : ((List.range n).filter (fun i => decide (i ∈ ds))) ⊆ ds := by
      intro x hx
      exact of_decide_eq_true (List.mem_filter.mp hx).2
    have h2 := (hnd.subperm hsub).length_le
    omega
  · unfold droppedChunkCount
    have h2 := List.length_filter_le (fun i => decide (i ∈ ds)) (List.range n)
    rw [List.length_range] at h2
    exact h2

/-- Witness for C2 amended at `n = 3`, `k = 2`, draw stream `id`. -/
theorem c2_witness :
    ∃ ds, npChoice 3 2 (fun j => j) = .ok ds ∧ ds.length = 2 ∧ (∀ i ∈ ds, i < 3)
      ∧ 1 ≤ droppedChunkCount 3 ds ∧ droppedChunkCount 3 ds ≤ 2
      ∧ droppedChunkCount 3 ds ≤ 3 :=
  c2_with_replacement_drop_count 3 2 (fun j => j) (by decide) (by decide)

/-- C3: `Augmentation.forward` returns its input unchanged, every
`SpecAugmentation` transform inherits it unchanged, and consequently the
composite `apply_helper`s of `FractalStretch` and `FractalDropout` — which
invoke their sub-transforms by module call (i.e. `forward`), not by
`apply_helper` — return the input data unchanged. -/
theorem c3_forward_identity (data : Mat) :
    augmentationForward data = data
    ∧ fractalStretchApplyHelper data = data
    ∧ fractalDropoutApplyHelper data = data :=
  ⟨rfl, rfl, rfl⟩

/-- C4 counterexample: `FractalTimeStretch` with `min_chunk_size = 5`
greater than the time-axis length `w = 3` (and `max_chunk_size = 7`,
`intra_ratio = 0` with all trigger draws at 1, so every chunk passes
through) does **not** fail with a configuration error: the single oversized
chunk is silently truncated by slicing and the call returns an output (here
equal to the input after the final shape-restoring resize). -/
theorem c4_counterexample :
    (ftsApplyHelper ⟨some 5, some 7, 0, 1, 1⟩ (fun _ => 0) (fun _ => 1)
        (fun _ => 1) [[0, 1, 2], [3, 4, 5]]).2
      = Except.ok [[0, 1, 2], [3, 4, 5]] := rfl

/-- C4 amended: `FractalTimeStretch.apply_helper` performs no validation of
`min_chunk_size` against the axis length.  With `min_chunk_size > w` it does
not loop forever; if additionally `max_chunk_size > min_chunk_size` it
silently produces an output of the input's shape (the claim's
"configuration error" never happens), while if `max_chunk_size ≤
min_chunk_size` the width draw `np.random.randint(low, high)` raises
`ValueError` — a numpy error, not a configuration check of the class. -/
theorem c4_oversized_min_chunk_no_validation (h w lo hi : ℕ) (intra rl rh : ℚ)
    (data : Mat) (wdraw : ℕ → ℕ) (tdraw rdraw : ℕ → ℚ)
    (hM : IsMatrix h w data) (hh : 1 ≤ h) (hw : 1 ≤ w) (hbig : w < lo) :
    (lo < hi →
      ∃ out, (ftsApplyHelper ⟨some lo, some hi, intra, rl, rh⟩ wdraw tdraw rdraw data).2
          = .ok out ∧ IsMatrix h w out)
    ∧ (hi ≤ lo →
      (ftsApplyHelper ⟨some lo, some hi, intra, rl, rh⟩ wdraw tdraw rdraw data).2
        = .error .valueError) := by
  constructor
  · intro hlt
    obtain ⟨ws, hws, heq⟩ :=
      ftsApplyHelper_run h w lo hi intra rl rh data wdraw tdraw rdraw hM hh
        (by omega) hlt
    exact ⟨_, by rw [heq], resizeNN_shape h w _⟩
  · intro hle
    exact ftsApplyHelper_err h w lo hi intra rl rh data wdraw tdraw rdraw hM hh hw hle

/-- Witness for C4 amended at a 2×3 array with `min_chunk_size = 5 > 3`. -/
theorem c4_witness :
    ((5 : ℕ) < 7 →
      ∃ out, (ftsApplyHelper ⟨some 5, some 7, 3/10, 4/5, 6/5⟩ (fun _ => 0)
          (fun _ => 1) (fun _ => 1) [[0, 1, 2], [3, 4, 5]]).2
          = .ok out ∧ IsMatrix 2 3 out)
    ∧ ((7 : ℕ) ≤ 5 →
      (ftsApplyHelper ⟨some 5, some 7, 3/10, 4/5, 6/5⟩ (fun _ => 0)
          (fun _ => 1) (fun _ => 1) [[0, 1, 2], [3, 4, 5]]).2
        = .error .valueError) :=
  c4_oversized_min_chunk_no_validation 2 3 5 7 (3/10) (4/5) (6/5)
    [[0, 1, 2], [3, 4, 5]] (fun _ => 0) (fun _ => 1) (fun _ => 1)
    (by decide) (by decide) (by decide) (by decide)

/-- C5: for every axis length `L` and valid bounds `1 ≤ min_size < max_size`,
the chunk-partition loop terminates and yields widths `w₁..wₖ`, each in the
integer range `[min_size, max_size)` (exclusive upper bound), whose total is
`≥ L` while every proper prefix sums to less than `L` — i.e. the cumulative
sum first reaches `L` exactly at the last width. -/
theorem c5_chunk_partition_covers (L lo hi : ℕ) (draw : ℕ → ℕ)
    (hlo : 1 ≤ lo) (hlt : lo < hi) :
    ∃ ws, chunkWidths L lo hi draw = .ok ws ∧ L ≤ ws.sum
      ∧ (∀ n < ws.length, (ws.take n).sum < L)
      ∧ ∀ x ∈ ws, lo ≤ x ∧ x < hi :=
  chunkWidths_spec L lo hi draw hlo hlt

/-- Witness for C5 at `L = 5`, bounds `[1, 3)`, draw stream `id`. -/
theorem c5_witness :
    ∃ ws, chunkWidths 5 1 3 (fun i => i) = .ok ws ∧ 5 ≤ ws.sum
      ∧ (∀ n < ws.length, (ws.take n).sum < 5)
      ∧ ∀ x ∈ ws, 1 ≤ x ∧ x < 3 :=
  c5_chunk_partition_covers 5 1 3 (fun i => i) (by decide) (by decide)

/-- C6 counterexample.  First conjunct: on a 100×2 array (height `h = 100`,
time axis `w = 2`), `FractalTimeDropout` with unset bounds memoizes
`min_chunk_size = int(h * 0.01) = 1` — computed from the **height**, not
"1% of the time-axis length" as the claim states (1% of `w = 2` is `0`,
second conjunct).  Third conjunct: `FractalFrecDropout` with its default
`min = max = int(h * 0.1)` bounds does **not** complete normally: the width
draw `np.random.randint(low, high)` with `low == high` raises `ValueError`
(here on a 20×1 array). -/
theorem c6_counterexample :
    (ftdApplyHelper ⟨none, none, 1, 3⟩ (fun _ => 0) 0 (fun _ => 0)
        (List.replicate 100 ([0, 0] : List ℤ))).1.min_chunk_size = some 1
    ∧ (some 1 : Option ℕ) ≠ some (2 / 100)
    ∧ (ffdApplyHelper ⟨none, none, 1, 3⟩ (fun _ => 0) 0 (fun _ => 0)
        (List.replicate 20 ([0] : List ℤ))).2 = Except.error PyErr.valueError := by
  refine ⟨?_, by decide, ?_⟩
  · set_option maxRecDepth 8192 in exact rfl
  · exact rfl

/-- C6 amended: both dropout transforms derive their default chunk-size
bounds from the array **height** `h`: `FractalTimeDropout` stores
`min = int(h*0.01)`, `max = int(h*0.1)` even though it partitions the time
axis `w`, and `FractalFrecDropout` stores `min = max = int(h*0.1)`; with the
frec defaults the width draw has `low >= high`, so on any input the
transform raises rather than completing normally.  (`int(h*0.01)` /
`int(h*0.1)` equal `h / 100` / `h / 10` in ℕ.) -/
theorem c6_default_bounds_from_height (mc Mc n : ℕ) (data : Mat)
    (wdraw cdraw : ℕ → ℕ) (kdraw : ℕ) (hne : joinAll data ≠ []) :
    ftdUpdateBounds ⟨none, none, mc, Mc⟩ n = ⟨some (n / 100), some (n / 10), mc, Mc⟩
    ∧ (ftdApplyHelper ⟨none, none, mc, Mc⟩ wdraw kdraw cdraw data).1
        = ⟨some (data.length / 100), some (data.length / 10), mc, Mc⟩
    ∧ ∃ e, (ffdApplyHelper ⟨none, none, mc, Mc⟩ wdraw kdraw cdraw data).2
        = Except.error e := by
  have hdiv : ∀ m : ℕ, m / 100 ≤ m / 10 := fun m =>
    Nat.div_le_div_left (by omega) (by omega)
  have h1 : ∀ m : ℕ, ftdUpdateBounds ⟨none, none, mc, Mc⟩ m
      = ⟨some (m / 100), some (m / 10), mc, Mc⟩ := by
    intro m
    unfold ftdUpdateBounds
    rw [if_neg (by simp only [Option.getD_none]; exact Nat.not_lt.mpr (hdiv m))]
    rfl
  refine ⟨h1 n, ?_, ?_⟩
  · rw [ftdApplyHelper_fst _ _ _ _ _ hne, h1]
  · have hL : 1 ≤ data.length := by
      cases data with
      | nil => simp [joinAll] at hne
      | cons r rest => simp
    obtain ⟨mini, hmini⟩ := Option.isSome_iff_exists.mp (listMin_isSome hne)
    have hup : ffdUpdateBounds ⟨none, none, mc, Mc⟩ data.length
        = ⟨some (data.length / 10), some (data.length / 10), mc, Mc⟩ := by
      unfold ffdUpdateBounds
      rw [if_neg (by simp only [Option.getD_none]; omega)]
      rfl
    have hcw := chunkWidths_err data.length (data.length / 10) (data.length / 10)
      wdraw (le_refl _) (by omega)
    refine ⟨.valueError, ?_⟩
    simp only [ffdApplyHelper, hmini, hup, Option.getD_some, hcw]

/-- Witness for C6 amended on a concrete 1×1 array. -/
theorem c6_witness :
    ftdUpdateBounds ⟨none, none, 1, 3⟩ 100 = ⟨some 1, some 10, 1, 3⟩
    ∧ (ftdApplyHelper ⟨none, none, 1, 3⟩ (fun _ => 0) 0 (fun _ => 0) [[5]]).1
        = ⟨some 0, some 0, 1, 3⟩
    ∧ ∃ e, (ffdApplyHelper ⟨none, none, 1, 3⟩ (fun _ => 0) 0 (fun _ => 0) [[5]]).2
        = Except.error e :=
  c6_default_bounds_from_height 1 3 100 [[5]] (fun _ => 0) (fun _ => 0) 0 (by decide)

/-- C7: the dropout transforms replace each dropped chunk by a constant
array of the chunk's exact shape filled with the input's global minimum
(`np.ones(chunk.shape) * data.min()`), keep the other chunks unmodified,
and consequently the global minimum of the output equals the global minimum
of the input — for `FractalTimeDropout` and `FractalFrecDropout` alike. -/
theorem c7_dropout_fill_preserves_min (h w lo hi mc Mc : ℕ) (data : Mat)
    (wdraw cdraw : ℕ → ℕ) (kdraw : ℕ)
    (hM : IsMatrix h w data) (hh : 1 ≤ h) (hw : 1 ≤ w)
    (hlo : 1 ≤ lo) (hlt : lo < hi) (hk : mc ≤ Mc) :
    (∃ out, (ftdApplyHelper ⟨some lo, some hi, mc, Mc⟩ wdraw kdraw cdraw data).2
        = .ok out ∧ listMin (joinAll out) = listMin (joinAll data))
    ∧ (∃ out, (ffdApplyHelper ⟨some lo, some hi, mc, Mc⟩ wdraw kdraw cdraw data).2
        = .ok out ∧ listMin (joinAll out) = listMin (joinAll data)) := by
  constructor
  · obtain ⟨mini, ws, hmini, hws, hsum, hpref, hbnd, heq⟩ :=
      ftdApplyHelper_run h w lo hi mc Mc data wdraw cdraw kdraw hM hh hw hlo hlt hk
    have hwsne : ws ≠ [] := by
      intro hnil
      rw [hnil] at hsum
      simp at hsum
      omega
    refine ⟨_, by rw [heq], ?_⟩
    rw [hmini]
    apply ftd_min_preserved hM hh hmini hsum
      (fun x hx => le_trans hlo (hbnd x hx).1) hpref
    intro i hi
    obtain ⟨j, _, rfl⟩ := List.mem_map.mp hi
    exact Nat.mod_lt _ (List.length_pos.mpr hwsne)
  · obtain ⟨mini, ws, hmini, hws, hsum, hpref, hbnd, heq⟩ :=
      ffdApplyHelper_run h w lo hi mc Mc data wdraw cdraw kdraw hM hh hw hlo hlt hk
    have hwsne : ws ≠ [] := by
      intro hnil
      rw [hnil] at hsum
      simp at hsum
      omega
    refine ⟨_, by rw [heq], ?_⟩
    rw [hmini]
    apply ffd_min_preserved hM hw hmini hsum
      (fun x hx => le_trans hlo (hbnd x hx).1) hpref
    intro i hi
    obtain ⟨j, _, rfl⟩ := List.mem_map.mp hi
    exact Nat.mod_lt _ (List.length_pos.mpr hwsne)

/-- Witness for C7 on a concrete 2×3 array. -/
theorem c7_witness :
    (∃ out, (ftdApplyHelper ⟨some 1, some 2, 1, 1⟩ (fun _ => 0) 0 (fun _ => 1)
        [[7, 2, 3], [4, 5, 6]]).2
        = .ok out ∧ listMin (joinAll out) = listMin (joinAll [[7, 2, 3], [4, 5, 6]]))
    ∧ (∃ out, (ffdApplyHelper ⟨some 1, some 2, 1, 1⟩ (fun _ => 0) 0 (fun _ => 1)
        [[7, 2, 3], [4, 5, 6]]).2
        = .ok out ∧ listMin (joinAll out) = listMin (joinAll [[7, 2, 3], [4, 5, 6]])) :=
  c7_dropout_fill_preserves_min 2 3 1 2 1 1 [[7, 2, 3], [4, 5, 6]]
    (fun _ => 0) (fun _ => 1) 0 (by decide) (by decide) (by decide) (by decide)
    (by decide) (by decide)

/-- C8 counterexample: `FractalDropout.__init__` raises, but not with a
configuration error about `ratio`: constructing `FractalDropout(2)` dies
with `AttributeError: cannot assign module before Module.__init__() call`
(its constructor never calls `super().__init__()`), and the **identical**
error occurs at the in-range `ratio = 0` — the out-of-range `ratio` is
never checked (the sub-transforms are built with the constant `1.0`), so
the error is not the eager configuration check the claim promises. -/
theorem c8_counterexample :
    fractalDropoutInit 2 = Except.error PyErr.attributeError
    ∧ fractalDropoutInit 0 = Except.error PyErr.attributeError
    ∧ Except.error (α := ℚ) PyErr.attributeError
        ≠ Except.error PyErr.assertionError := by
  refine ⟨rfl, rfl, fun h => ?_⟩
  exact PyErr.noConfusion (Except.error.inj h)

/-- C8 amended: for `ratio` outside `[0, 1]`, `Augmentation.__init__`'s
`assert` raises eagerly at construction for every transform that reaches it
— all base transforms, and `FractalStretch`, whose constructor builds
`FractalTimeStretch(ratio, …)` first so the assert fires before anything
else.  `FractalDropout` never validates `ratio`: it stores it unchecked and
its constructor then fails unconditionally with `AttributeError` when
assigning its first sub-module (it never calls `super().__init__()`), the
same error for every `ratio`. -/
theorem c8_ratio_check_skipped_by_fractal_dropout (r : ℚ)
    (hr : ¬ (0 ≤ r ∧ r ≤ 1)) :
    augmentationInit r = .error .assertionError
    ∧ fractalStretchInit r = .error .assertionError
    ∧ fractalDropoutInit r = .error .attributeError := by
  have h1 : augmentationInit r = .error .assertionError := by
    unfold augmentationInit
    rw [if_neg hr]
  refine ⟨h1, ?_, ?_⟩
  · unfold fractalStretchInit
    rw [h1]
    rfl
  · rfl

/-- Witness for C8 amended at `ratio = 2`. -/
theorem c8_witness :
    augmentationInit 2 = .error .assertionError
    ∧ fractalStretchInit 2 = .error .assertionError
    ∧ fractalDropoutInit 2 = .error .attributeError :=
  c8_ratio_check_skipped_by_fractal_dropout 2
    (by intro hc; exact absurd hc.2 (by norm_num))

/-- C9: chunk-size bounds left `None` are computed from the array's shape on
the first `apply_helper` call, stored on the instance, and never recomputed:
after one call both bound fields are `some`, and a second call — on an array
of any other shape — leaves the stored bounds unchanged (shown for
`FractalTimeStretch` and, on any array with at least one element, for
`FractalTimeDropout`). -/
theorem c9_lazy_bound_memoization (s : FTSState) (t : FDState)
    (data data2 : Mat) (wd1 wd2 cd1 cd2 : ℕ → ℕ) (k1 k2 : ℕ)
    (td1 rd1 td2 rd2 : ℕ → ℚ) (hne : joinAll data ≠ []) :
    ((ftsApplyHelper s wd1 td1 rd1 data).1.min_chunk_size.isSome
      ∧ (ftsApplyHelper s wd1 td1 rd1 data).1.max_chunk_size.isSome
      ∧ (ftsApplyHelper (ftsApplyHelper s wd1 td1 rd1 data).1 wd2 td2 rd2 data2).1
          = (ftsApplyHelper s wd1 td1 rd1 data).1)
    ∧ ((ftdApplyHelper t wd1 k1 cd1 data).1.min_chunk_size.isSome
      ∧ (ftdApplyHelper t wd1 k1 cd1 data).1.max_chunk_size.isSome
      ∧ (ftdApplyHelper (ftdApplyHelper t wd1 k1 cd1 data).1 wd2 k2 cd2 data2).1
          = (ftdApplyHelper t wd1 k1 cd1 data).1) := by
  have hfst1 := ftsApplyHelper_fst s wd1 td1 rd1 data
  have hfst2 := ftsApplyHelper_fst (ftsApplyHelper s wd1 td1 rd1 data).1
    wd2 td2 rd2 data2
  have htfst := ftdApplyHelper_fst t wd1 k1 cd1 data hne
  refine ⟨⟨?_, ?_, ?_⟩, ?_, ?_, ?_⟩
  · rw [hfst1]
    exact (ftsUpdateBounds_isSome s _).1
  · rw [hfst1]
    exact (ftsUpdateBounds_isSome s _).2
  · rw [hfst2, hfst1, ftsUpdateBounds_idem]
  · rw [htfst]
    exact (ftdUpdateBounds_isSome t _).1
  · rw [htfst]
    exact (ftdUpdateBounds_isSome t _).2
  · rcases ftdApplyHelper_fst_cases (ftdApplyHelper t wd1 k1 cd1 data).1
      wd2 k2 cd2 data2 with hc | hc
    · exact hc
    · rw [hc, htfst, ftdUpdateBounds_idem]

/-- Witness for C9 with a first call on a 1×2 array and a second call on a
differently shaped 2×1 array. -/
theorem c9_witness :
    ((ftsApplyHelper ⟨none, none, 0, 1, 1⟩ (fun _ => 0) (fun _ => 1) (fun _ => 1)
        [[1, 2]]).1.min_chunk_size.isSome
      ∧ (ftsApplyHelper ⟨none, none, 0, 1, 1⟩ (fun _ => 0) (fun _ => 1) (fun _ => 1)
        [[1, 2]]).1.max_chunk_size.isSome
      ∧ (ftsApplyHelper (ftsApplyHelper ⟨none, none, 0, 1, 1⟩ (fun _ => 0)
            (fun _ => 1) (fun _ => 1) [[1, 2]]).1 (fun _ => 0) (fun _ => 1)
            (fun _ => 1) [[3], [4]]).1
          = (ftsApplyHelper ⟨none, none, 0, 1, 1⟩ (fun _ => 0) (fun _ => 1)
            (fun _ => 1) [[1, 2]]).1)
    ∧ ((ftdApplyHelper ⟨none, none, 1, 3⟩ (fun _ => 0) 0 (fun _ => 0)
        [[1, 2]]).1.min_chunk_size.isSome
      ∧ (ftdApplyHelper ⟨none, none, 1, 3⟩ (fun _ => 0) 0 (fun _ => 0)
        [[1, 2]]).1.max_chunk_size.isSome
      ∧ (ftdApplyHelper (ftdApplyHelper ⟨none, none, 1, 3⟩ (fun _ => 0) 0
            (fun _ => 0) [[1, 2]]).1 (fun _ => 0) 0 (fun _ => 0) [[3], [4]]).1
          = (ftdApplyHelper ⟨none, none, 1, 3⟩ (fun _ => 0) 0 (fun _ => 0)
            [[1, 2]]).1) :=
  c9_lazy_bound_memoization ⟨none, none, 0, 1, 1⟩ ⟨none, none, 1, 3⟩
    [[1, 2]] [[3], [4]] (fun _ => 0) (fun _ => 0) (fun _ => 0) (fun _ => 0) 0 0
    (fun _ => 1) (fun _ => 1) (fun _ => 1) (fun _ => 1) (by decide)

/-- C10 (code bug): with method `'pick_one'`, **every** `compose` call —
in particular on a singleton pool whose member satisfies the pre-process
predicate — raises `NameError`, because `augmentations.py` imports neither
`random` (line 68) nor `torch.nn` (line 79), and therefore never places
anything in the pre-process slot.  The claim describes the evident intended
selection/placement behaviour; the missing imports are the code's slip. -/
theorem c10_compose_name_error {α : Type} (pre proc post : List α)
    (pr po : α → Bool) (pool : List α) (draw : ℕ) :
    composeCompose (⟨pre, proc, post, pr, po, "pick_one"⟩ : Composer α) pool draw
      = .error .nameError := rfl

end AugUtils
